import Mathlib

/-!
Verification of the releasability-check orchestrator (SonarSource
gh-action_releasability) against its natural-language specification.

The Python sources are shallowly embedded: pure functions become Lean
functions over `List Char` / `String` / `Finset String`, the SQS polling
loop becomes explicit state passing over a list of poll batches, and
Python exceptions become `Except`.  Machine-unspecified aspects (Python
set iteration order, wall-clock time) are made explicit parameters or
deterministic choices, documented at each definition.
-/

/-! ## String utilities shared by the embeddings

Python string primitives are re-implemented on `List Char` so that every
definition is executable and kernel-reducible.
-/

/-- Characters of `s` as a list; `String.toList` unfolded for reduction. -/
def strChars (s : String) : List Char := s.data

/-- Python `str.split(sep)` for a single-character separator. -/
def splitOnChar (sep : Char) : List Char → List (List Char)
  | [] => [[]]
  | c :: rest =>
    if c = sep then [] :: splitOnChar sep rest
    else
      match splitOnChar sep rest with
      | [] => [[c]]
      | h :: t => (c :: h) :: t

/-- Python `needle in hay` (substring containment). -/
def containsSub (pat : List Char) : List Char → Bool
  | [] => pat.isEmpty
  | c :: rest => pat.isPrefixOf (c :: rest) || containsSub pat rest

/-- Python `str.lstrip(chars)`: remove the longest leading run of
characters belonging to `stripSet` (a character *set*, not a prefix). -/
def lstripChars (stripSet : List Char) : List Char → List Char
  | [] => []
  | c :: rest => if stripSet.contains c then lstripChars stripSet rest else c :: rest

/-- Python `str.strip()` (whitespace at both ends). -/
def pyStrip (cs : List Char) : List Char :=
  ((cs.dropWhile Char.isWhitespace).reverse.dropWhile Char.isWhitespace).reverse

/-- The code points at which the ten-character runs of the Unicode
decimal-digit category Nd begin (Unicode 14.0, the table of the CPython
build interpreting this program).  Every `\d` character lies in exactly
one run `[s, s+9]`, and its decimal value is its offset in the run. -/
def digitStarts : List Nat :=
  [48, 1632, 1776, 1984, 2406, 2534, 2662, 2790, 2918, 3046,
   3174, 3302, 3430, 3558, 3664, 3792, 3872, 4160, 4240, 6112,
   6160, 6470, 6608, 6784, 6800, 6992, 7088, 7232, 7248, 42528,
   43216, 43264, 43472, 43504, 43600, 44016, 65296, 66720, 68912, 69734,
   69872, 69942, 70096, 70384, 70736, 70864, 71248, 71360, 71472, 71904,
   72016, 72784, 73040, 73120, 92768, 92864, 93008, 120782, 120792, 120802,
   120812, 120822, 123200, 123632, 125264, 130032]

/-- Python `\d` on a `str` pattern: any Unicode decimal digit. -/
def pyRegexDigit (c : Char) : Bool :=
  digitStarts.any fun s => decide (s ≤ c.toNat) && decide (c.toNat ≤ s + 9)

/-- The decimal value of a `\d` character: its offset in its run. -/
def pyDigitVal (c : Char) : Nat :=
  match digitStarts.find? (fun s => decide (s ≤ c.toNat) && decide (c.toNat ≤ s + 9)) with
  | some s => c.toNat - s
  | none => 0

/-- Numeric value of a `\d+` group (the `int(...)` of the build
number): each digit contributes its Unicode decimal value. -/
def digitsToNat (ds : List Char) : Nat :=
  ds.foldl (fun n c => 10 * n + pyDigitVal c) 0

/-! ## `utils/version_helper.py`

`VERSION_REGEX = ^(?:[a-zA-Z]+-)?\d+\.\d+\.\d+(?:-M\d+)?[.+](\d+)$`,
applied with `re.match` to a `str`: `\d` matches any Unicode decimal
digit, `[a-zA-Z]` is plain ASCII, and `$` matches at the end of the
input or just before one newline that ends the input.

The regex is embedded as a deterministic matcher: every `+` repetition
of the pattern is followed by a pattern element no character of the
repeated class can satisfy (`-` after the letters; `.`, `+`, `-` or the
`$` position after each digit run — a decimal digit is none of these
and is not a newline), so the greedy match never backtracks and
maximal-run scanning is exact.
-/

/-- `\d+` with what follows: the maximal leading digit run, failing when
it is empty. -/
def expectDigits (cs : List Char) : Option (List Char × List Char) :=
  if (cs.takeWhile pyRegexDigit).isEmpty then none
  else some (cs.takeWhile pyRegexDigit, cs.dropWhile pyRegexDigit)

/-- `(?:[a-zA-Z]+-)?`: the optional project-name group of `VERSION_REGEX`. -/
def stripProjectName (cs : List Char) : Option (List Char) :=
  match cs with
  | [] => some []
  | c :: _ =>
    if c.isAlpha then
      match cs.dropWhile Char.isAlpha with
      | [] => none
      | d :: rest => if d = '-' then some rest else none
    else some cs

/-- `[.+](\d+)$`: separator, captured build number, then `$` — the end
of the input or just before a single trailing newline. -/
def matchSepBuild (cs : List Char) : Option Nat :=
  match cs with
  | [] => none
  | c :: rest =>
    if c = '.' ∨ c = '+' then
      match expectDigits rest with
      | some (ds, rest2) =>
        if rest2 = [] ∨ rest2 = ['\n'] then some (digitsToNat ds) else none
      | none => none
    else none

/-- `(?:-M\d+)?[.+](\d+)$`: the tail of `VERSION_REGEX` after
`Major.Minor.Patch`. -/
def matchAfterPatch (cs : List Char) : Option Nat :=
  match cs with
  | [] => matchSepBuild cs
  | c :: rest =>
    if c = '-' then
      match rest with
      | [] => none
      | c2 :: rest2 =>
        if c2 = 'M' then
          match expectDigits rest2 with
          | some (_, rest3) => matchSepBuild rest3
          | none => none
        else none
    else matchSepBuild cs

/-- A literal `\.` of the pattern. -/
def requireDot : List Char → Option (List Char)
  | [] => none
  | c :: rest => if c = '.' then some rest else none

/-- The whole of `VERSION_REGEX` on a character list; returns the
captured build number. -/
def matchVersionChars (cs : List Char) : Option Nat :=
  (stripProjectName cs).bind fun cs1 =>
  (expectDigits cs1).bind fun p1 =>
  (requireDot p1.2).bind fun cs2 =>
  (expectDigits cs2).bind fun p2 =>
  (requireDot p2.2).bind fun cs3 =>
  (expectDigits cs3).bind fun p3 =>
  matchAfterPatch p3.2

/-- The whole of `VERSION_REGEX`; returns the captured build number. -/
def matchVersionRegex (s : String) : Option Nat :=
  matchVersionChars (strChars s)

/-- `VersionHelper.validate_version`: `True` iff no `ValueError` is
raised, i.e. iff `re.match(VERSION_REGEX, version)` succeeds. -/
def validate_version (version : String) : Bool :=
  (matchVersionRegex version).isSome

/-- `VersionHelper.extract_build_number`: re-validates, then returns the
first capturing group as an integer. -/
def extract_build_number (version : String) : Option Nat :=
  if validate_version version then matchVersionRegex version else none

/-- The version grammar as the specification states it, as a declarative
decomposition: optional alphabetic prefix and dash, `MAJOR.MINOR.PATCH`,
optional `-M<digits>`, a `.` or `+` separator, and a final all-digits
build number ending the string. -/
def versionParts (pre : Option (List Char)) (maj minr pat : List Char)
    (m : Option (List Char)) (sep : Char) (build : List Char) : List Char :=
  (match pre with | some p => p ++ ['-'] | none => []) ++
    (maj ++ '.' :: (minr ++ '.' :: (pat ++
      ((match m with | some d => '-' :: 'M' :: d | none => []) ++ sep :: build))))

/-- Side conditions of the grammar decomposition; digit groups are read
as `\d` does, Unicode decimal digits. -/
def versionPartsOk (pre : Option (List Char)) (maj minr pat : List Char)
    (m : Option (List Char)) (sep : Char) (build : List Char) : Prop :=
  (match pre with | some p => p ≠ [] ∧ ∀ c ∈ p, c.isAlpha = true | none => True) ∧
  (maj ≠ [] ∧ ∀ c ∈ maj, pyRegexDigit c = true) ∧
  (minr ≠ [] ∧ ∀ c ∈ minr, pyRegexDigit c = true) ∧
  (pat ≠ [] ∧ ∀ c ∈ pat, pyRegexDigit c = true) ∧
  (match m with | some d => d ≠ [] ∧ ∀ c ∈ d, pyRegexDigit c = true | none => True) ∧
  (sep = '.' ∨ sep = '+') ∧
  (build ≠ [] ∧ ∀ c ∈ build, pyRegexDigit c = true)

/-- `s` matches the grammar of the specification (nothing follows the
build number). -/
def specVersionGrammar (s : String) : Prop :=
  ∃ pre maj minr pat m sep build,
    strChars s = versionParts pre maj minr pat m sep build ∧
    versionPartsOk pre maj minr pat m sep build

/-- `s` matches `VERSION_REGEX` as Python reads it: the grammar,
optionally followed by one trailing newline (the `$` semantics of
`re`). -/
def specVersionGrammarPy (s : String) : Prop :=
  ∃ pre maj minr pat m sep build nl,
    strChars s = versionParts pre maj minr pat m sep build ++ nl ∧
    (nl = [] ∨ nl = ['\n']) ∧
    versionPartsOk pre maj minr pat m sep build

/-! ## Character-class facts used by the regex proofs -/

theorem uint32_le_iff (a b : UInt32) : (a ≤ b) ↔ a.toNat ≤ b.toNat := by
  simp [UInt32.le_def, BitVec.le_def, UInt32.toNat]

theorem char_isAlpha_iff (c : Char) :
    c.isAlpha = true ↔ (65 ≤ c.toNat ∧ c.toNat ≤ 90) ∨ (97 ≤ c.toNat ∧ c.toNat ≤ 122) := by
  have h1 : UInt32.toNat 65 = 65 := rfl
  have h2 : UInt32.toNat 90 = 90 := rfl
  have h3 : UInt32.toNat 97 = 97 := rfl
  have h4 : UInt32.toNat 122 = 122 := rfl
  simp only [Char.isAlpha, Char.isUpper, Char.isLower, GE.ge, Bool.or_eq_true, Bool.and_eq_true,
    decide_eq_true_eq, uint32_le_iff, Char.toNat, h1, h2, h3, h4]

/-- A `\d` character sits in the ASCII digit run or at code point 1632
or beyond, so it is never an ASCII letter. -/
theorem isAlpha_eq_false_of_pyDigit (c : Char) (h : pyRegexDigit c = true) :
    c.isAlpha = false := by
  rw [Bool.eq_false_iff]
  intro hA
  rw [char_isAlpha_iff] at hA
  unfold pyRegexDigit at h
  rw [List.any_eq_true] at h
  obtain ⟨s, hs, hb⟩ := h
  simp only [Bool.and_eq_true, decide_eq_true_eq] at hb
  have hrange : s = 48 ∨ 1632 ≤ s := by
    have hall : digitStarts.all (fun s => decide (s = 48 ∨ 1632 ≤ s)) = true := by decide
    rw [List.all_eq_true] at hall
    simpa using hall s hs
  rcases hrange with rfl | hge <;> omega

/-! ## Scanning lemmas for the maximal-run matcher -/

theorem takeWhile_all_append (p : Char → Bool) (ds rest : List Char)
    (h1 : ∀ c ∈ ds, p c = true)
    (h2 : ∀ c, rest.head? = some c → p c = false) :
    (ds ++ rest).takeWhile p = ds ∧ (ds ++ rest).dropWhile p = rest := by
  induction ds with
  | nil =>
    simp only [List.nil_append]
    cases rest with
    | nil => simp
    | cons r t =>
      have hr : p r = false := h2 r rfl
      simp [List.takeWhile_cons, List.dropWhile_cons, hr]
  | cons d ds ih =>
    have hd : p d = true := h1 d (by simp)
    have ih2 := ih (fun c hc => h1 c (by simp [hc]))
    simp [List.takeWhile_cons, List.dropWhile_cons, hd, ih2.1, ih2.2]

theorem dropWhile_head_false (p : Char → Bool) :
    ∀ (cs : List Char) (c : Char), (cs.dropWhile p).head? = some c → p c = false := by
  intro cs
  induction cs with
  | nil => intro c h; simp at h
  | cons a t ih =>
    intro c h
    rw [List.dropWhile_cons] at h
    cases hpa : p a with
    | true => simp only [hpa, if_true] at h; exact ih c h
    | false =>
      simp only [hpa, Bool.false_eq_true, if_false, List.head?_cons, Option.some.injEq] at h
      subst h
      exact hpa

theorem expectDigits_eq (cs ds rest : List Char) (h : expectDigits cs = some (ds, rest)) :
    cs = ds ++ rest ∧ ds ≠ [] ∧ (∀ c ∈ ds, pyRegexDigit c = true) ∧
      (∀ c, rest.head? = some c → pyRegexDigit c = false) := by
  unfold expectDigits at h
  by_cases he : (cs.takeWhile pyRegexDigit).isEmpty
  · rw [if_pos he] at h; cases h
  · rw [if_neg he] at h
    simp only [Option.some.injEq, Prod.mk.injEq] at h
    obtain ⟨h1, h2⟩ := h
    subst h1; subst h2
    refine ⟨(List.takeWhile_append_dropWhile ..).symm, ?_, ?_, ?_⟩
    · intro hnil; rw [hnil] at he; exact he rfl
    · intro c hc; exact List.mem_takeWhile_imp hc
    · intro c hc; exact dropWhile_head_false pyRegexDigit cs c hc

theorem expectDigits_append (ds rest : List Char)
    (hne : ds ≠ []) (hds : ∀ c ∈ ds, pyRegexDigit c = true)
    (hrest : ∀ c, rest.head? = some c → pyRegexDigit c = false) :
    expectDigits (ds ++ rest) = some (ds, rest) := by
  obtain ⟨h1, h2⟩ := takeWhile_all_append pyRegexDigit ds rest hds hrest
  unfold expectDigits
  rw [h1, h2, if_neg (by simp [List.isEmpty_iff, hne])]

theorem stripProjectName_not_alpha (cs : List Char)
    (h : ∀ c, cs.head? = some c → c.isAlpha = false) :
    stripProjectName cs = some cs := by
  cases cs with
  | nil => rfl
  | cons c rest =>
    have hc : c.isAlpha = false := h c rfl
    simp [stripProjectName, hc]

theorem stripProjectName_alpha (p rest : List Char)
    (hne : p ≠ []) (hp : ∀ c ∈ p, c.isAlpha = true) :
    stripProjectName (p ++ '-' :: rest) = some rest := by
  obtain ⟨h1, h2⟩ := takeWhile_all_append Char.isAlpha p ('-' :: rest) hp
    (by intro c hc
        simp only [List.head?_cons, Option.some.injEq] at hc
        subst hc; decide)
  cases p with
  | nil => exact absurd rfl hne
  | cons a t =>
    have ha : a.isAlpha = true := hp a (by simp)
    rw [List.cons_append] at h2
    show stripProjectName (a :: (t ++ '-' :: rest)) = some rest
    simp [stripProjectName, ha, h2]

theorem stripProjectName_eq (cs cs' : List Char) (h : stripProjectName cs = some cs') :
    cs = cs' ∨ ∃ p, p ≠ [] ∧ (∀ c ∈ p, c.isAlpha = true) ∧ cs = p ++ '-' :: cs' := by
  cases cs with
  | nil =>
    left
    simp only [stripProjectName, Option.some.injEq] at h
    exact h
  | cons c rest =>
    by_cases hc : c.isAlpha = true
    · right
      simp only [stripProjectName] at h
      rw [if_pos hc] at h
      cases hd : (c :: rest).dropWhile Char.isAlpha with
      | nil => rw [hd] at h; cases h
      | cons d t =>
        rw [hd] at h
        by_cases hdd : d = '-'
        · subst hdd
          simp only [if_pos, Option.some.injEq] at h
          subst h
          refine ⟨(c :: rest).takeWhile Char.isAlpha, ?_, ?_, ?_⟩
          · simp [List.takeWhile_cons, hc]
          · intro x hx; exact List.mem_takeWhile_imp hx
          · conv_lhs => rw [← List.takeWhile_append_dropWhile (p := Char.isAlpha) (l := c :: rest)]
            rw [hd]
        · simp [hdd] at h
    · left
      simp only [stripProjectName] at h
      rw [if_neg hc] at h
      simp only [Option.some.injEq] at h
      exact h

theorem matchSepBuild_build (sep : Char) (build nl : List Char)
    (hsep : sep = '.' ∨ sep = '+') (hne : build ≠ [])
    (hb : ∀ c ∈ build, pyRegexDigit c = true) (hnl : nl = [] ∨ nl = ['\n']) :
    matchSepBuild (sep :: (build ++ nl)) = some (digitsToNat build) := by
  have hhead : ∀ c, nl.head? = some c → pyRegexDigit c = false := by
    rcases hnl with rfl | rfl
    · intro c hc; cases hc
    · intro c hc
      simp only [List.head?_cons, Option.some.injEq] at hc
      subst hc
      decide
  have he : expectDigits (build ++ nl) = some (build, nl) :=
    expectDigits_append build nl hne hb hhead
  simp only [matchSepBuild]
  rw [if_pos hsep, he]
  show (if nl = [] ∨ nl = ['\n'] then some (digitsToNat build) else none) =
    some (digitsToNat build)
  rw [if_pos hnl]

theorem matchSepBuild_eq (cs : List Char) (n : Nat) (h : matchSepBuild cs = some n) :
    ∃ sep build nl, cs = sep :: (build ++ nl) ∧ (nl = [] ∨ nl = ['\n']) ∧
      (sep = '.' ∨ sep = '+') ∧ build ≠ [] ∧
      (∀ c ∈ build, pyRegexDigit c = true) ∧ n = digitsToNat build := by
  cases cs with
  | nil => cases h
  | cons c rest =>
    by_cases hc : c = '.' ∨ c = '+'
    · simp only [matchSepBuild] at h
      rw [if_pos hc] at h
      cases he : expectDigits rest with
      | none => rw [he] at h; cases h
      | some pr =>
        obtain ⟨ds, r⟩ := pr
        rw [he] at h
        have h2 : (if r = [] ∨ r = ['\n'] then some (digitsToNat ds) else none) = some n := h
        by_cases hr : r = [] ∨ r = ['\n']
        · rw [if_pos hr] at h2
          obtain ⟨hcs, hdne, hds, _⟩ := expectDigits_eq rest ds r he
          subst hcs
          exact ⟨c, ds, r, rfl, hr, hc, hdne, hds, (Option.some.inj h2).symm⟩
        · rw [if_neg hr] at h2
          cases h2
    · simp only [matchSepBuild] at h
      rw [if_neg hc] at h
      cases h

theorem matchAfterPatch_noM (sep : Char) (build nl : List Char)
    (hsep : sep = '.' ∨ sep = '+') (hne : build ≠ [])
    (hb : ∀ c ∈ build, pyRegexDigit c = true) (hnl : nl = [] ∨ nl = ['\n']) :
    matchAfterPatch (sep :: (build ++ nl)) = some (digitsToNat build) := by
  have hs : ¬sep = '-' := by rcases hsep with h | h <;> subst h <;> decide
  simp only [matchAfterPatch]
  rw [if_neg hs]
  exact matchSepBuild_build sep build nl hsep hne hb hnl

theorem matchAfterPatch_withM (d : List Char) (sep : Char) (build nl : List Char)
    (hd : d ≠ []) (hdd : ∀ c ∈ d, pyRegexDigit c = true)
    (hsep : sep = '.' ∨ sep = '+') (hne : build ≠ [])
    (hb : ∀ c ∈ build, pyRegexDigit c = true) (hnl : nl = [] ∨ nl = ['\n']) :
    matchAfterPatch ('-' :: 'M' :: (d ++ sep :: (build ++ nl))) =
      some (digitsToNat build) := by
  have he : expectDigits (d ++ sep :: (build ++ nl)) = some (d, sep :: (build ++ nl)) :=
    expectDigits_append d (sep :: (build ++ nl)) hd hdd
      (by intro c hc
          simp only [List.head?_cons, Option.some.injEq] at hc
          subst hc
          rcases hsep with h | h <;> subst h <;> decide)
  simp only [matchAfterPatch, if_pos, he]
  exact matchSepBuild_build sep build nl hsep hne hb hnl

theorem matchAfterPatch_eq (cs : List Char) (n : Nat) (h : matchAfterPatch cs = some n) :
    (∃ d sep build nl, cs = '-' :: 'M' :: (d ++ sep :: (build ++ nl)) ∧ d ≠ [] ∧
        (∀ c ∈ d, pyRegexDigit c = true) ∧ (sep = '.' ∨ sep = '+') ∧
        (nl = [] ∨ nl = ['\n']) ∧ build ≠ [] ∧
        (∀ c ∈ build, pyRegexDigit c = true) ∧ n = digitsToNat build) ∨
    (∃ sep build nl, cs = sep :: (build ++ nl) ∧ (sep = '.' ∨ sep = '+') ∧
        (nl = [] ∨ nl = ['\n']) ∧ build ≠ [] ∧
        (∀ c ∈ build, pyRegexDigit c = true) ∧ n = digitsToNat build) := by
  cases cs with
  | nil => cases h
  | cons c rest =>
    by_cases hc : c = '-'
    · subst hc
      simp only [matchAfterPatch, if_pos] at h
      cases rest with
      | nil => cases h
      | cons c2 rest2 =>
        by_cases hc2 : c2 = 'M'
        · subst hc2
          simp only [if_pos] at h
          cases he : expectDigits rest2 with
          | none => rw [he] at h; cases h
          | some pr =>
            obtain ⟨ds, rest3⟩ := pr
            rw [he] at h
            obtain ⟨sep, build, nl, h3, hnl, hsep, hbne, hb, hn⟩ := matchSepBuild_eq rest3 n h
            obtain ⟨hcs, hdne, hds, _⟩ := expectDigits_eq rest2 ds rest3 he
            left
            refine ⟨ds, sep, build, nl, ?_, hdne, hds, hsep, hnl, hbne, hb, hn⟩
            rw [hcs, h3]
        · simp [hc2] at h
    · simp only [matchAfterPatch] at h
      rw [if_neg hc] at h
      rcases matchSepBuild_eq _ n h with ⟨sep, build, nl, h3, hnl, hsep, hbne, hb, hn⟩
      right
      exact ⟨sep, build, nl, h3, hsep, hnl, hbne, hb, hn⟩

theorem requireDot_eq (r x : List Char) (h : requireDot r = some x) : r = '.' :: x := by
  cases r with
  | nil => cases h
  | cons c rest =>
    by_cases hc : c = '.'
    · subst hc
      simp only [requireDot, if_pos, Option.some.injEq] at h
      rw [h]
    · simp [requireDot, hc] at h

/-- `versionParts` with a suffix appended, re-associated so the suffix
joins the build digits. -/
theorem versionParts_append (pre : Option (List Char)) (maj minr pat : List Char)
    (m : Option (List Char)) (sep : Char) (build nl : List Char) :
    versionParts pre maj minr pat m sep build ++ nl =
      (match pre with | some p => p ++ ['-'] | none => []) ++
        (maj ++ '.' :: (minr ++ '.' :: (pat ++
          ((match m with | some d => '-' :: 'M' :: d | none => []) ++
            sep :: (build ++ nl))))) := by
  cases pre <;> cases m <;>
    simp [versionParts, List.append_assoc, List.cons_append, List.nil_append]

theorem matchVersionChars_sound (cs : List Char) (n : Nat)
    (h : matchVersionChars cs = some n) :
    ∃ pre maj minr pat m sep build nl,
      cs = versionParts pre maj minr pat m sep build ++ nl ∧
      (nl = [] ∨ nl = ['\n']) ∧
      versionPartsOk pre maj minr pat m sep build ∧ n = digitsToNat build := by
  unfold matchVersionChars at h
  cases hsp : stripProjectName cs with
  | none => rw [hsp] at h; cases h
  | some cs1 =>
    rw [hsp] at h
    simp only [Option.some_bind] at h
    cases he1 : expectDigits cs1 with
    | none => rw [he1] at h; cases h
    | some pr1 =>
      obtain ⟨maj0, r1⟩ := pr1
      rw [he1] at h
      simp only [Option.some_bind] at h
      cases hd1 : requireDot r1 with
      | none => rw [hd1] at h; cases h
      | some cs2 =>
        rw [hd1] at h
        simp only [Option.some_bind] at h
        cases he2 : expectDigits cs2 with
        | none => rw [he2] at h; cases h
        | some pr2 =>
          obtain ⟨minr0, r2⟩ := pr2
          rw [he2] at h
          simp only [Option.some_bind] at h
          cases hd2 : requireDot r2 with
          | none => rw [hd2] at h; cases h
          | some cs3 =>
            rw [hd2] at h
            simp only [Option.some_bind] at h
            cases he3 : expectDigits cs3 with
            | none => rw [he3] at h; cases h
            | some pr3 =>
              obtain ⟨pat0, cs4⟩ := pr3
              rw [he3] at h
              simp only [Option.some_bind] at h
              obtain ⟨hcs1, hmaj1, hmaj2, _⟩ := expectDigits_eq cs1 maj0 r1 he1
              obtain ⟨hcs2, hmin1, hmin2, _⟩ := expectDigits_eq cs2 minr0 r2 he2
              obtain ⟨hcs3, hpat1, hpat2, _⟩ := expectDigits_eq cs3 pat0 cs4 he3
              have hr1 : r1 = '.' :: cs2 := requireDot_eq r1 cs2 hd1
              have hr2 : r2 = '.' :: cs3 := requireDot_eq r2 cs3 hd2
              have hbody : ∀ (m : Option (List Char)) (sep : Char) (build nl : List Char),
                  cs4 = (match m with | some d => '-' :: 'M' :: d | none => []) ++
                    sep :: (build ++ nl) →
                  cs1 = maj0 ++ '.' :: (minr0 ++ '.' :: (pat0 ++
                    ((match m with | some d => '-' :: 'M' :: d | none => []) ++
                      sep :: (build ++ nl)))) := by
                intro m sep build nl h4
                rw [hcs1, hr1, hcs2, hr2, hcs3, h4]
              rcases matchAfterPatch_eq cs4 n h with
                ⟨d, sep, build, nl, h4, hd1, hd2, hsep, hnl, hb1, hb2, hn⟩ |
                ⟨sep, build, nl, h4, hsep, hnl, hb1, hb2, hn⟩
              all_goals rcases stripProjectName_eq cs cs1 hsp with hpre | ⟨p, hp1, hp2, hpre⟩
              · refine ⟨none, maj0, minr0, pat0, some d, sep, build, nl, ?_, hnl, ?_, hn⟩
                · rw [hpre, versionParts_append]
                  simp only [List.nil_append]
                  exact hbody (some d) sep build nl h4
                · exact ⟨trivial, ⟨hmaj1, hmaj2⟩, ⟨hmin1, hmin2⟩,
                    ⟨hpat1, hpat2⟩, ⟨hd1, hd2⟩, hsep, hb1, hb2⟩
              · refine ⟨some p, maj0, minr0, pat0, some d, sep, build, nl, ?_, hnl, ?_, hn⟩
                · rw [hpre, versionParts_append]
                  simp only [List.append_assoc, List.singleton_append]
                  rw [hbody (some d) sep build nl h4]
                · exact ⟨⟨hp1, hp2⟩, ⟨hmaj1, hmaj2⟩,
                    ⟨hmin1, hmin2⟩, ⟨hpat1, hpat2⟩, ⟨hd1, hd2⟩,
                    hsep, hb1, hb2⟩
              · refine ⟨none, maj0, minr0, pat0, none, sep, build, nl, ?_, hnl, ?_, hn⟩
                · rw [hpre, versionParts_append]
                  simp only [List.nil_append]
                  exact hbody none sep build nl h4
                · exact ⟨trivial, ⟨hmaj1, hmaj2⟩, ⟨hmin1, hmin2⟩,
                    ⟨hpat1, hpat2⟩, trivial, hsep, hb1, hb2⟩
              · refine ⟨some p, maj0, minr0, pat0, none, sep, build, nl, ?_, hnl, ?_, hn⟩
                · rw [hpre, versionParts_append]
                  simp only [List.append_assoc, List.singleton_append]
                  rw [hbody none sep build nl h4]
                · exact ⟨⟨hp1, hp2⟩, ⟨hmaj1, hmaj2⟩,
                    ⟨hmin1, hmin2⟩, ⟨hpat1, hpat2⟩, trivial, hsep, hb1, hb2⟩

theorem requireDot_dot (x : List Char) : requireDot ('.' :: x) = some x := by
  simp [requireDot]

theorem head_notDigit_of_sep (sep : Char) (rest : List Char)
    (hsep : sep = '.' ∨ sep = '+') :
    ∀ c, (sep :: rest).head? = some c → pyRegexDigit c = false := by
  intro c hc
  simp only [List.head?_cons, Option.some.injEq] at hc
  subst hc
  rcases hsep with h | h <;> subst h <;> decide

theorem head_notDigit_cons (a : Char) (rest : List Char) (ha : pyRegexDigit a = false) :
    ∀ c, (a :: rest).head? = some c → pyRegexDigit c = false := by
  intro c hc
  simp only [List.head?_cons, Option.some.injEq] at hc
  subst hc
  exact ha

theorem stripProjectName_digits_head (body maj : List Char) (rest : List Char)
    (hbody : body = maj ++ rest) (hm1 : maj ≠ []) (hm2 : ∀ c ∈ maj, pyRegexDigit c = true) :
    stripProjectName body = some body := by
  apply stripProjectName_not_alpha
  cases maj with
  | nil => exact absurd rfl hm1
  | cons a t =>
    intro c hc
    rw [hbody] at hc
    simp only [List.cons_append, List.head?_cons, Option.some.injEq] at hc
    subst hc
    exact isAlpha_eq_false_of_pyDigit a (hm2 a (by simp))

theorem matchVersionChars_body (maj minr pat tail : List Char)
    (hm1 : maj ≠ []) (hm2 : ∀ c ∈ maj, pyRegexDigit c = true)
    (hn1 : minr ≠ []) (hn2 : ∀ c ∈ minr, pyRegexDigit c = true)
    (hp1 : pat ≠ []) (hp2 : ∀ c ∈ pat, pyRegexDigit c = true)
    (htail : ∀ c, tail.head? = some c → pyRegexDigit c = false) :
    matchVersionChars (maj ++ '.' :: (minr ++ '.' :: (pat ++ tail))) =
      matchAfterPatch tail := by
  have e1 : expectDigits (maj ++ '.' :: (minr ++ '.' :: (pat ++ tail))) =
      some (maj, '.' :: (minr ++ '.' :: (pat ++ tail))) :=
    expectDigits_append _ _ hm1 hm2 (head_notDigit_cons '.' _ (by decide))
  have e2 : expectDigits (minr ++ '.' :: (pat ++ tail)) =
      some (minr, '.' :: (pat ++ tail)) :=
    expectDigits_append _ _ hn1 hn2 (head_notDigit_cons '.' _ (by decide))
  have e3 : expectDigits (pat ++ tail) = some (pat, tail) :=
    expectDigits_append _ _ hp1 hp2 htail
  have hsp : stripProjectName (maj ++ '.' :: (minr ++ '.' :: (pat ++ tail))) =
      some (maj ++ '.' :: (minr ++ '.' :: (pat ++ tail))) :=
    stripProjectName_digits_head _ maj _ rfl hm1 hm2
  unfold matchVersionChars
  rw [hsp]
  simp only [Option.some_bind, e1, requireDot_dot, e2, e3]

theorem matchVersionChars_complete (pre : Option (List Char)) (maj minr pat : List Char)
    (m : Option (List Char)) (sep : Char) (build nl : List Char)
    (hok : versionPartsOk pre maj minr pat m sep build) (hnl : nl = [] ∨ nl = ['\n']) :
    matchVersionChars (versionParts pre maj minr pat m sep build ++ nl) =
      some (digitsToNat build) := by
  obtain ⟨hpre, ⟨hm1, hm2⟩, ⟨hn1, hn2⟩, ⟨hp1, hp2⟩, hmd, hsep, hb1, hb2⟩ := hok
  rw [versionParts_append]
  cases m with
  | none =>
    have hAfter : matchAfterPatch (sep :: (build ++ nl)) = some (digitsToNat build) :=
      matchAfterPatch_noM sep build nl hsep hb1 hb2 hnl
    cases pre with
    | none =>
      show matchVersionChars ([] ++ (maj ++ '.' :: (minr ++ '.' :: (pat ++
        ([] ++ sep :: (build ++ nl)))))) = some (digitsToNat build)
      simp only [List.nil_append]
      rw [matchVersionChars_body maj minr pat (sep :: (build ++ nl)) hm1 hm2 hn1 hn2 hp1 hp2
        (head_notDigit_of_sep sep (build ++ nl) hsep)]
      exact hAfter
    | some p =>
      obtain ⟨hq1, hq2⟩ := hpre
      show matchVersionChars ((p ++ ['-']) ++ (maj ++ '.' :: (minr ++ '.' :: (pat ++
        ([] ++ sep :: (build ++ nl)))))) = some (digitsToNat build)
      simp only [List.nil_append, List.append_assoc, List.singleton_append]
      unfold matchVersionChars
      rw [stripProjectName_alpha p _ hq1 hq2]
      simp only [Option.some_bind]
      have hbody := matchVersionChars_body maj minr pat (sep :: (build ++ nl)) hm1 hm2 hn1 hn2
        hp1 hp2 (head_notDigit_of_sep sep (build ++ nl) hsep)
      unfold matchVersionChars at hbody
      rw [stripProjectName_digits_head _ maj _ rfl hm1 hm2] at hbody
      simp only [Option.some_bind] at hbody
      rw [hbody]
      exact hAfter
  | some d =>
    obtain ⟨hd1, hd2⟩ := hmd
    have hAfter : matchAfterPatch ('-' :: 'M' :: (d ++ sep :: (build ++ nl))) =
        some (digitsToNat build) :=
      matchAfterPatch_withM d sep build nl hd1 hd2 hsep hb1 hb2 hnl
    have htail : ∀ c, ('-' :: 'M' :: (d ++ sep :: (build ++ nl))).head? = some c →
        pyRegexDigit c = false :=
      head_notDigit_cons '-' _ (by decide)
    cases pre with
    | none =>
      show matchVersionChars ([] ++ (maj ++ '.' :: (minr ++ '.' :: (pat ++
        (('-' :: 'M' :: d) ++ sep :: (build ++ nl)))))) = some (digitsToNat build)
      simp only [List.nil_append, List.cons_append]
      have hbody := matchVersionChars_body maj minr pat
        ('-' :: 'M' :: (d ++ sep :: (build ++ nl))) hm1 hm2 hn1 hn2 hp1 hp2 htail
      rw [hbody]
      exact hAfter
    | some p =>
      obtain ⟨hq1, hq2⟩ := hpre
      show matchVersionChars ((p ++ ['-']) ++ (maj ++ '.' :: (minr ++ '.' :: (pat ++
        (('-' :: 'M' :: d) ++ sep :: (build ++ nl)))))) = some (digitsToNat build)
      simp only [List.nil_append, List.append_assoc, List.singleton_append, List.cons_append]
      unfold matchVersionChars
      rw [stripProjectName_alpha p _ hq1 hq2]
      simp only [Option.some_bind]
      have hbody := matchVersionChars_body maj minr pat
        ('-' :: 'M' :: (d ++ sep :: (build ++ nl))) hm1 hm2 hn1 hn2 hp1 hp2 htail
      unfold matchVersionChars at hbody
      rw [stripProjectName_digits_head _ maj _ rfl hm1 hm2] at hbody
      simp only [Option.some_bind] at hbody
      rw [hbody]
      exact hAfter

theorem getLast?_cons_ne (a : Char) (l : List Char) (h : l ≠ []) :
    (a :: l).getLast? = l.getLast? := by
  cases l with
  | nil => exact absurd rfl h
  | cons b t => rfl

theorem getLast?_append_ne_nil (l1 l2 : List Char) (h : l2 ≠ []) :
    (l1 ++ l2).getLast? = l2.getLast? := by
  induction l1 with
  | nil => rfl
  | cons a t ih =>
    have hne : t ++ l2 ≠ [] := by
      intro hx
      rcases List.append_eq_nil.mp hx with ⟨_, h2⟩
      exact h h2
    rw [List.cons_append, getLast?_cons_ne a (t ++ l2) hne, ih]

theorem getLast?_mem (l : List Char) (h : l ≠ []) : ∃ c, l.getLast? = some c ∧ c ∈ l := by
  induction l with
  | nil => exact absurd rfl h
  | cons a t ih =>
    cases t with
    | nil => exact ⟨a, rfl, by simp⟩
    | cons b t2 =>
      obtain ⟨c, h1, h2⟩ := ih (by simp)
      refine ⟨c, ?_, List.mem_cons_of_mem a h2⟩
      rw [getLast?_cons_ne a (b :: t2) (by simp)]
      exact h1

/-- Every grammar decomposition ends in its build digits. -/
theorem versionParts_ends_with_build (pre : Option (List Char)) (maj minr pat : List Char)
    (m : Option (List Char)) (sep : Char) (build : List Char) :
    versionParts pre maj minr pat m sep build =
      ((match pre with | some p => p ++ ['-'] | none => []) ++ maj ++ ['.'] ++ minr ++
        ['.'] ++ pat ++ (match m with | some d => '-' :: 'M' :: d | none => []) ++
          [sep]) ++ build := by
  cases pre <;> cases m <;>
    simp [versionParts, List.append_assoc, List.cons_append, List.nil_append,
      List.singleton_append]

/-- C4 counterexample: Python's `$` also matches just before a trailing
newline, so `re.match(VERSION_REGEX, ...)` accepts `"1.2.3.1234\n"` —
which does not match the claimed grammar, whose build-number digits end
the string. -/
theorem validate_version_newline_counterexample :
    validate_version "1.2.3.1234\n" = true ∧ ¬ specVersionGrammar "1.2.3.1234\n" := by
  constructor
  · decide
  · rintro ⟨pre, maj, minr, pat, m, sep, build, hs, hok⟩
    obtain ⟨hbne, hbd⟩ := hok.2.2.2.2.2.2
    obtain ⟨c, hc1, hc2⟩ := getLast?_mem build hbne
    have hdig : pyRegexDigit c = true := hbd c hc2
    have hvp : (strChars "1.2.3.1234\n").getLast? = some c := by
      rw [hs, versionParts_ends_with_build, getLast?_append_ne_nil _ build hbne, hc1]
    have hnlc : (strChars "1.2.3.1234\n").getLast? = some '\n' := by decide
    rw [hnlc] at hvp
    have hcn : c = '\n' := (Option.some.inj hvp).symm
    rw [hcn] at hdig
    exact absurd hdig (by decide)

/-- C4 amended: `validate_version` accepts exactly the grammar strings —
digit groups read as Unicode decimal digits, per `\d` — optionally
followed by one trailing newline, per Python's `$`; on every accepted
string `extract_build_number` returns the decimal value of the final
digit group; in particular `"1.2.3.1234"` yields build number `1234`
and `"1.2.3"` fails validation, and the two Python-specific acceptances
(`"1.2.3.1234\n"` and Arabic-Indic digits) are exercised concretely. -/
theorem validate_version_python_grammar :
    (∀ s : String, validate_version s = true ↔ specVersionGrammarPy s) ∧
    (∀ (s : String) (pre : Option (List Char)) (maj minr pat : List Char)
        (m : Option (List Char)) (sep : Char) (build nl : List Char),
        strChars s = versionParts pre maj minr pat m sep build ++ nl →
        (nl = [] ∨ nl = ['\n']) →
        versionPartsOk pre maj minr pat m sep build →
        extract_build_number s = some (digitsToNat build)) ∧
    extract_build_number "1.2.3.1234" = some 1234 ∧
    validate_version "1.2.3" = false ∧
    extract_build_number "1.2.3.1234\n" = some 1234 ∧
    extract_build_number "1.2.3.١٢٣" = some 123 := by
  have hmain : ∀ (s : String) (pre : Option (List Char)) (maj minr pat : List Char)
      (m : Option (List Char)) (sep : Char) (build nl : List Char),
      strChars s = versionParts pre maj minr pat m sep build ++ nl →
      (nl = [] ∨ nl = ['\n']) →
      versionPartsOk pre maj minr pat m sep build →
      matchVersionRegex s = some (digitsToNat build) := by
    intro s pre maj minr pat m sep build nl hs hnl hok
    unfold matchVersionRegex
    rw [hs]
    exact matchVersionChars_complete pre maj minr pat m sep build nl hok hnl
  refine ⟨?_, ?_, by decide, by decide, by decide, by decide⟩
  · intro s
    constructor
    · intro hv
      unfold validate_version at hv
      cases hm : matchVersionRegex s with
      | none => rw [hm] at hv; cases hv
      | some n =>
        obtain ⟨pre, maj, minr, pat, m, sep, build, nl, h1, h2, h3, _⟩ :=
          matchVersionChars_sound (strChars s) n hm
        exact ⟨pre, maj, minr, pat, m, sep, build, nl, h1, h2, h3⟩
    · rintro ⟨pre, maj, minr, pat, m, sep, build, nl, h1, h2, h3⟩
      unfold validate_version
      rw [hmain s pre maj minr pat m sep build nl h1 h2 h3]
      rfl
  · intro s pre maj minr pat m sep build nl h1 h2 h3
    have hv : validate_version s = true := by
      unfold validate_version
      rw [hmain s pre maj minr pat m sep build nl h1 h2 h3]
      rfl
    unfold extract_build_number
    rw [if_pos hv]
    exact hmain s pre maj minr pat m sep build nl h1 h2 h3

/-- Witness for the C4 amendment at a concrete decomposed version
string carrying the trailing newline. -/
theorem validate_version_python_grammar_witness :
    extract_build_number "ab-1.2.3-M4+567\n" = some 567 :=
  (validate_version_python_grammar.2.1 "ab-1.2.3-M4+567\n"
    (some ['a', 'b']) ['1'] ['2'] ['3'] (some ['4']) '+' ['5', '6', '7'] ['\n']
    (by decide) (by decide) (by unfold versionPartsOk; decide)).trans (by decide)
/-! ## `releasability/releasability_check_result.py` -/

def CHECK_PASSED : String := "PASSED"

def CHECK_NOT_RELEVANT : String := "NOT_RELEVANT"

def CHECK_ERROR : String := "ERROR"

def CHECK_FAILED : String := "FAILED"

/-- `ReleasabilityCheckResult.has_passed`: the `match state` arms of the
source, the catch-all arm last. -/
def has_passed (state : String) : Bool :=
  if state = CHECK_PASSED then true
  else if state = CHECK_NOT_RELEVANT then true
  else if state = CHECK_FAILED then false
  else if state = CHECK_ERROR then false
  else false

/-- `ReleasabilityCheckResult` (the `details` map is rendering-only and
left out of the model). -/
structure ReleasabilityCheckResult where
  name : String
  state : String
  message : Option String
  passed : Bool
deriving DecidableEq

/-- `ReleasabilityCheckResult.__init__`: stores the fields and derives
`passed = has_passed(state)`. -/
def mkCheckResult (name state : String) (message : Option String) : ReleasabilityCheckResult :=
  { name := name, state := state, message := message, passed := has_passed state }

/-- Modelled from the spec: `ReleasabilityChecksReport.contains_error`
(`releasability_checks_report.py` is imported by the sources but not
among them) — "contains_error() is true iff any contained CheckResult
has passed == false". -/
def contains_error (results : List ReleasabilityCheckResult) : Bool :=
  results.any fun r => !r.passed

/-- C6: `passed` is a pure function of `state` — true exactly on PASSED
and NOT_RELEVANT, false on FAILED, ERROR and every unknown state — and a
report built from constructed results contains an error iff some input
state lies outside PASSED/NOT_RELEVANT. -/
theorem passed_iff_state_passed :
    (∀ (name state : String) (message : Option String),
      (mkCheckResult name state message).passed = true ↔
        state = CHECK_PASSED ∨ state = CHECK_NOT_RELEVANT) ∧
    (∀ inputs : List (String × String × Option String),
      contains_error (inputs.map fun t => mkCheckResult t.1 t.2.1 t.2.2) = true ↔
        ∃ t ∈ inputs, t.2.1 ≠ CHECK_PASSED ∧ t.2.1 ≠ CHECK_NOT_RELEVANT) := by
  have hp : ∀ state : String, has_passed state = true ↔
      (state = CHECK_PASSED ∨ state = CHECK_NOT_RELEVANT) := by
    intro state
    by_cases h1 : state = CHECK_PASSED
    · simp [has_passed, h1]
    · by_cases h2 : state = CHECK_NOT_RELEVANT
      · simp [has_passed, h1, h2]
      · by_cases h3 : state = CHECK_FAILED
        · simp [has_passed, h1, h2, h3]
        · by_cases h4 : state = CHECK_ERROR
          · simp [has_passed, h1, h2, h3, h4]
          · simp [has_passed, h1, h2, h3, h4]
  constructor
  · intro name state message
    exact hp state
  · intro inputs
    rw [contains_error, List.any_eq_true]
    constructor
    · rintro ⟨r, hr, hpass⟩
      rw [List.mem_map] at hr
      obtain ⟨t, ht, rfl⟩ := hr
      simp only [mkCheckResult, Bool.not_eq_eq_eq_not, Bool.not_true] at hpass
      refine ⟨t, ht, ?_, ?_⟩
      · intro hx
        have htrue := (hp t.2.1).mpr (Or.inl hx)
        rw [htrue] at hpass
        cases hpass
      · intro hx
        have htrue := (hp t.2.1).mpr (Or.inr hx)
        rw [htrue] at hpass
        cases hpass
    · rintro ⟨t, ht, hstate⟩
      refine ⟨mkCheckResult t.1 t.2.1 t.2.2, List.mem_map.mpr ⟨t, ht, rfl⟩, ?_⟩
      have hfalse : has_passed t.2.1 = false := by
        cases hh : has_passed t.2.1
        · rfl
        · rcases (hp t.2.1).mp hh with h | h
          · exact absurd h hstate.1
          · exact absurd h hstate.2
      simp [mkCheckResult, hfalse]

/-! ## `releasability/releasability_service.py` — result polling

`_fetch_check_results` (the SQS receive plus double JSON decode) is the
environment boundary: a poll is modelled by the batch of decoded
messages it yields.  `has_exceeded_timeout` (`utils/timeout.py`,
imported by the source but not among the sources) is modelled from the
spec: "elapsed wall-clock time exceeds a fixed ceiling" — the loop is
given the finite list of batches it gets to fetch before the ceiling;
exhausting it is the timeout.
-/

def ACK_TYPE : String := "ACK"

def EXPECTED_RELEASABILITY_CHECK_NAMES : Finset String :=
  {"CheckDependencies", "QA", "Jira", "CheckPeacheeLanguagesStatistics",
   "QualityGate", "ParentPOM", "GitHub", "CheckManifestValues"}

/-- One decoded message from the result queue; `receiptHandle` is the
queue-side identity `_delete_messages` would pass to `delete_message`. -/
structure SqsMessage where
  requestUUID : String
  type : String
  checkName : String
  message : Option String
  receiptHandle : Nat
deriving DecidableEq

/-- `ReleasabilityService.match_correlation_id`. -/
def match_correlation_id (msg : SqsMessage) (correlation_id : String) : Bool :=
  msg.requestUUID == correlation_id

/-- `ReleasabilityService.not_an_ack_message`. -/
def not_an_ack_message (msg : SqsMessage) : Bool :=
  msg.type != ACK_TYPE

/-- `_fetch_filtered_check_results` on one fetched batch: `.1` is what
the caller receives (`relevant_messages`), `.2` what `_delete_messages`
deletes (`current_messages`). -/
def fetch_filtered_check_results (correlation_id : String)
    (unfiltered_messages : List SqsMessage) : List SqsMessage × List SqsMessage :=
  ((unfiltered_messages.filter fun msg => match_correlation_id msg correlation_id).filter
      not_an_ack_message,
    unfiltered_messages.filter fun msg => match_correlation_id msg correlation_id)

/-- The mutable locals of `_get_check_results`'s while loop. -/
structure PollState where
  checks_awaiting_result : Finset String
  received_check_results : List ReleasabilityCheckResult
deriving DecidableEq

/-- The body of `for message_payload in filtered_messages`. -/
def process_message (st : PollState) (msg : SqsMessage) : PollState :=
  if msg.checkName ∈ st.checks_awaiting_result then
    { checks_awaiting_result := st.checks_awaiting_result.erase msg.checkName,
      received_check_results := st.received_check_results ++
        [mkCheckResult msg.checkName msg.type msg.message] }
  else st

/-- One iteration of the while loop on the batch the poll fetched. -/
def process_batch (correlation_id : String) (st : PollState)
    (batch : List SqsMessage) : PollState :=
  ((fetch_filtered_check_results correlation_id batch).1).foldl process_message st

/-- The while loop of `_get_check_results`. -/
def poll_loop (correlation_id : String) : List (List SqsMessage) → PollState → PollState
  | [], st => st
  | batch :: rest, st =>
    if st.checks_awaiting_result = ∅ then st
    else poll_loop correlation_id rest (process_batch correlation_id st batch)

/-- `_get_check_results`: the collected results, or the
`CouldNotRetrieveReleasabilityCheckResultsException` carrying the checks
that never reported (`expected` is what `_get_checks` returns). -/
def get_check_results (expected : Finset String) (correlation_id : String)
    (batches : List (List SqsMessage)) :
    Except (Finset String) (List ReleasabilityCheckResult) :=
  let st := poll_loop correlation_id batches
    { checks_awaiting_result := expected, received_check_results := [] }
  if st.checks_awaiting_result = ∅ then Except.ok st.received_check_results
  else Except.error st.checks_awaiting_result

/-- Names of the collected results. -/
def receivedNames (st : PollState) : List String :=
  st.received_check_results.map fun r => r.name

/-- Invariant of `_get_check_results`'s loop: collected names are
distinct, lie in the expected set and are no longer awaited; the
awaiting set stays inside the expected set; every expected name is
awaited or collected. -/
def PollInv (expected : Finset String) (st : PollState) : Prop :=
  (receivedNames st).Nodup ∧
  (∀ n ∈ receivedNames st, n ∈ expected ∧ n ∉ st.checks_awaiting_result) ∧
  st.checks_awaiting_result ⊆ expected ∧
  (∀ n ∈ expected, n ∈ st.checks_awaiting_result ∨ n ∈ receivedNames st)

theorem process_message_inv (expected : Finset String) (st : PollState) (msg : SqsMessage)
    (h : PollInv expected st) : PollInv expected (process_message st msg) := by
  obtain ⟨h1, h2, h3, h4⟩ := h
  unfold process_message
  by_cases hm : msg.checkName ∈ st.checks_awaiting_result
  · rw [if_pos hm]
    have hnotin : msg.checkName ∉ receivedNames st := fun hx => (h2 _ hx).2 hm
    have hrn : receivedNames
        { checks_awaiting_result := st.checks_awaiting_result.erase msg.checkName,
          received_check_results := st.received_check_results ++
            [mkCheckResult msg.checkName msg.type msg.message] } =
        receivedNames st ++ [msg.checkName] := by
      simp [receivedNames, mkCheckResult]
    refine ⟨?_, ?_, ?_, ?_⟩
    · rw [hrn]
      refine List.Nodup.append h1 (List.nodup_singleton _) ?_
      intro a ha hb
      simp only [List.mem_singleton] at hb
      subst hb
      exact hnotin ha
    · intro n hn
      rw [hrn, List.mem_append] at hn
      rcases hn with hn | hn
      · refine ⟨(h2 n hn).1, fun hx => (h2 n hn).2 (Finset.mem_of_mem_erase hx)⟩
      · simp only [List.mem_singleton] at hn
        subst hn
        exact ⟨h3 hm, Finset.not_mem_erase _ _⟩
    · exact (Finset.erase_subset _ _).trans h3
    · intro n hn
      rcases h4 n hn with hA | hR
      · by_cases hEq : n = msg.checkName
        · right; rw [hrn, List.mem_append]; right; simp [hEq]
        · left; exact Finset.mem_erase.mpr ⟨hEq, hA⟩
      · right; rw [hrn, List.mem_append]; left; exact hR
  · rw [if_neg hm]
    exact ⟨h1, h2, h3, h4⟩

theorem foldl_process_inv (expected : Finset String) (msgs : List SqsMessage) :
    ∀ st : PollState, PollInv expected st →
      PollInv expected (msgs.foldl process_message st) := by
  induction msgs with
  | nil => intro st h; exact h
  | cons m t ih =>
    intro st h
    exact ih (process_message st m) (process_message_inv expected st m h)

theorem poll_loop_inv_aux (expected : Finset String) (correlation_id : String)
    (batches : List (List SqsMessage)) :
    ∀ st : PollState, PollInv expected st →
      PollInv expected (poll_loop correlation_id batches st) := by
  induction batches with
  | nil => intro st h; exact h
  | cons b rest ih =>
    intro st h
    unfold poll_loop
    by_cases hA : st.checks_awaiting_result = ∅
    · rw [if_pos hA]; exact h
    · rw [if_neg hA]
      exact ih _ (foldl_process_inv expected _ st h)

theorem poll_loop_inv (expected : Finset String) (correlation_id : String)
    (batches : List (List SqsMessage)) :
    PollInv expected (poll_loop correlation_id batches
      { checks_awaiting_result := expected, received_check_results := [] }) := by
  apply poll_loop_inv_aux
  refine ⟨List.nodup_nil, ?_, le_refl _, ?_⟩
  · intro n hn; simp [receivedNames] at hn
  · intro n hn; exact Or.inl hn

theorem foldl_process_removed (msgs : List SqsMessage) :
    ∀ (st : PollState) (n : String), n ∈ st.checks_awaiting_result →
      n ∉ (msgs.foldl process_message st).checks_awaiting_result →
      ∃ msg ∈ msgs, msg.checkName = n := by
  induction msgs with
  | nil => intro st n hin hout; exact absurd hin hout
  | cons m t ih =>
    intro st n hin hout
    by_cases hn2 : n ∈ (process_message st m).checks_awaiting_result
    · obtain ⟨msg, hmem, heq⟩ := ih (process_message st m) n hn2 hout
      exact ⟨msg, List.mem_cons_of_mem m hmem, heq⟩
    · unfold process_message at hn2
      by_cases hm : m.checkName ∈ st.checks_awaiting_result
      · rw [if_pos hm] at hn2
        simp only [Finset.mem_erase, not_and] at hn2
        have : ¬ n ≠ m.checkName := fun hne => hn2 hne hin
        push_neg at this
        exact ⟨m, List.mem_cons_self m t, this.symm⟩
      · rw [if_neg hm] at hn2
        exact absurd hin hn2

/-- C1 counterexample: a fetched message whose requestUUID differs from
the active correlation id is not deleted by the poll (the code deletes
`current_messages`, the matching ones). -/
theorem foreign_message_not_deleted :
    ¬ ((⟨"other", "PASSED", "QA", none, 0⟩ : SqsMessage) ∈
      (fetch_filtered_check_results "corr"
        [⟨"other", "PASSED", "QA", none, 0⟩]).2) := by
  decide

/-- C1 amended: one poll deletes exactly the correlation-matched
messages; a fetched message that does not match the active correlation
id is neither deleted nor returned — it stays on the queue for other
consumers. -/
theorem poll_deletes_exactly_matching (correlation_id : String)
    (batch : List SqsMessage) (msg : SqsMessage) :
    (msg ∈ (fetch_filtered_check_results correlation_id batch).2 ↔
      msg ∈ batch ∧ msg.requestUUID = correlation_id) ∧
    (msg ∈ (fetch_filtered_check_results correlation_id batch).1 →
      msg.requestUUID = correlation_id ∧ msg.type ≠ ACK_TYPE) := by
  constructor
  · simp [fetch_filtered_check_results, List.mem_filter, match_correlation_id]
  · intro h
    simp only [fetch_filtered_check_results, List.mem_filter, match_correlation_id,
      not_an_ack_message, beq_iff_eq, bne_iff_ne, ne_eq, decide_eq_true_eq] at h
    exact ⟨h.1.2, h.2⟩

/-- Witness for the C1 amendment: a matching message is deleted. -/
theorem poll_deletes_exactly_matching_witness :
    (⟨"corr", "PASSED", "QA", none, 0⟩ : SqsMessage) ∈
      (fetch_filtered_check_results "corr" [⟨"corr", "PASSED", "QA", none, 0⟩]).2 :=
  (poll_deletes_exactly_matching "corr" [⟨"corr", "PASSED", "QA", none, 0⟩]
    ⟨"corr", "PASSED", "QA", none, 0⟩).1.mpr ⟨by decide, rfl⟩

/-- C7: a message becomes a CheckResult only if it matches the active
correlation id and is not an ACK; matched ACK messages are deleted but
never returned, and a name leaves the awaiting set only on account of a
matched non-ACK message carrying it. -/
theorem ack_messages_never_recorded (correlation_id : String) (batch : List SqsMessage) :
    (∀ msg ∈ (fetch_filtered_check_results correlation_id batch).1,
      msg.requestUUID = correlation_id ∧ msg.type ≠ ACK_TYPE) ∧
    (∀ msg ∈ batch, msg.requestUUID = correlation_id → msg.type = ACK_TYPE →
      msg ∈ (fetch_filtered_check_results correlation_id batch).2 ∧
        msg ∉ (fetch_filtered_check_results correlation_id batch).1) ∧
    (∀ (st : PollState) (n : String), n ∈ st.checks_awaiting_result →
      n ∉ (process_batch correlation_id st batch).checks_awaiting_result →
      ∃ msg ∈ batch, msg.requestUUID = correlation_id ∧ msg.type ≠ ACK_TYPE ∧
        msg.checkName = n) := by
  refine ⟨?_, ?_, ?_⟩
  · intro msg h
    exact (poll_deletes_exactly_matching correlation_id batch msg).2 h
  · intro msg hmem hid htype
    constructor
    · exact (poll_deletes_exactly_matching correlation_id batch msg).1.mpr ⟨hmem, hid⟩
    · intro hrel
      exact ((poll_deletes_exactly_matching correlation_id batch msg).2 hrel).2 htype
  · intro st n hin hout
    obtain ⟨msg, hmem, heq⟩ :=
      foldl_process_removed ((fetch_filtered_check_results correlation_id batch).1) st n
        hin hout
    have hprops := (poll_deletes_exactly_matching correlation_id batch msg).2 hmem
    have hbatch : msg ∈ batch := by
      have h2 := (poll_deletes_exactly_matching correlation_id batch msg).1.mp
      simp only [fetch_filtered_check_results, List.mem_filter] at hmem
      exact hmem.1.1
    exact ⟨msg, hbatch, hprops.1, hprops.2, heq⟩

/-- Witness for C7: a matched ACK message is deleted and not returned. -/
theorem ack_messages_never_recorded_witness :
    (⟨"corr", "ACK", "QA", none, 0⟩ : SqsMessage) ∈
      (fetch_filtered_check_results "corr" [⟨"corr", "ACK", "QA", none, 0⟩]).2 ∧
    (⟨"corr", "ACK", "QA", none, 0⟩ : SqsMessage) ∉
      (fetch_filtered_check_results "corr" [⟨"corr", "ACK", "QA", none, 0⟩]).1 :=
  (ack_messages_never_recorded "corr" [⟨"corr", "ACK", "QA", none, 0⟩]).2.1
    ⟨"corr", "ACK", "QA", none, 0⟩ (by decide) rfl rfl

/-- C3: polling either returns results whose names cover exactly the
expected set, or fails carrying exactly the expected names that never
reported; with expected set A,B and only a result for A arriving before
the timeout, the error names B. -/
theorem polling_returns_or_names_missing :
    (∀ (expected : Finset String) (correlation_id : String)
        (batches : List (List SqsMessage)),
      (∃ results, get_check_results expected correlation_id batches = Except.ok results ∧
        (results.map fun r => r.name).toFinset = expected) ∨
      (∃ missing, get_check_results expected correlation_id batches = Except.error missing ∧
        missing ≠ ∅ ∧ missing = expected \
          ((poll_loop correlation_id batches
            { checks_awaiting_result := expected,
              received_check_results := [] }).received_check_results.map
                fun r => r.name).toFinset)) ∧
    get_check_results {"A", "B"} "corr" [[⟨"corr", "PASSED", "A", none, 0⟩]] =
      Except.error {"B"} := by
  constructor
  · intro expected correlation_id batches
    obtain ⟨h1, h2, h3, h4⟩ := poll_loop_inv expected correlation_id batches
    by_cases hA : (poll_loop correlation_id batches
        { checks_awaiting_result := expected,
          received_check_results := [] }).checks_awaiting_result = ∅
    · left
      refine ⟨(poll_loop correlation_id batches
        { checks_awaiting_result := expected,
          received_check_results := [] }).received_check_results, ?_, ?_⟩
      · simp only [get_check_results]
        rw [if_pos hA]
      · ext n
        simp only [List.mem_toFinset]
        constructor
        · intro hn; exact (h2 n hn).1
        · intro hn
          rcases h4 n hn with hx | hx
          · rw [hA] at hx; exact absurd hx (Finset.not_mem_empty n)
          · exact hx
    · right
      refine ⟨(poll_loop correlation_id batches
        { checks_awaiting_result := expected,
          received_check_results := [] }).checks_awaiting_result, ?_, hA, ?_⟩
      · simp only [get_check_results]
        rw [if_neg hA]
      · ext n
        simp only [Finset.mem_sdiff, List.mem_toFinset]
        constructor
        · intro hn
          exact ⟨h3 hn, fun hx => (h2 n hx).2 hn⟩
        · rintro ⟨hne, hnr⟩
          rcases h4 n hne with hx | hx
          · exact hx
          · exact absurd hx hnr
  · rfl

/-- C10: the collection loop records at most one result per name and no
result whose name lies outside the statically fixed expected check-name
set, whatever inbound messages arrive (duplicates, unknown names,
foreign correlation ids included). -/
theorem poll_loop_unique_expected_names (correlation_id : String)
    (batches : List (List SqsMessage)) :
    ((poll_loop correlation_id batches
        { checks_awaiting_result := EXPECTED_RELEASABILITY_CHECK_NAMES,
          received_check_results := [] }).received_check_results.map
            fun r => r.name).Nodup ∧
    ∀ r ∈ (poll_loop correlation_id batches
        { checks_awaiting_result := EXPECTED_RELEASABILITY_CHECK_NAMES,
          received_check_results := [] }).received_check_results,
      r.name ∈ EXPECTED_RELEASABILITY_CHECK_NAMES := by
  obtain ⟨h1, h2, h3, h4⟩ :=
    poll_loop_inv EXPECTED_RELEASABILITY_CHECK_NAMES correlation_id batches
  refine ⟨h1, ?_⟩
  intro r hr
  exact (h2 r.name (List.mem_map.mpr ⟨r, hr, rfl⟩)).1

/-- Witness for C10: a delivered expected check is recorded with its
name inside the expected set. -/
theorem poll_loop_unique_expected_names_witness :
    (mkCheckResult "QA" "PASSED" none).name ∈ EXPECTED_RELEASABILITY_CHECK_NAMES :=
  (poll_loop_unique_expected_names "corr" [[⟨"corr", "PASSED", "QA", none, 0⟩]]).2
    (mkCheckResult "QA" "PASSED" none) (by decide)

/-! ## `releasability/inline_check.py` and `execute_inline_checks` -/

/-- `CheckContext` of `inline_check.py`. -/
structure CheckContext where
  organization : String
  repository : String
  branch : String
  version : String
  commit_sha : String

/-- An inline check: its `name` property and its `execute` method; a
Python exception raised by `execute` is modelled as `Except.error`
carrying `str(e)`. -/
structure InlineCheck where
  name : String
  execute : CheckContext → Except String ReleasabilityCheckResult

/-- `ReleasabilityService.execute_inline_checks` over the registry's
insertion-ordered inline-check list: each check runs in sequence; the
`except` arm turns an exception into an ERROR result for that check's
name carrying the exception text. -/
def execute_inline_checks (checks : List InlineCheck) (context : CheckContext) :
    List ReleasabilityCheckResult :=
  checks.map fun check =>
    match check.execute context with
    | Except.ok result => result
    | Except.error e => mkCheckResult check.name CHECK_ERROR (some e)

/-- C8: executing the inline checks yields exactly one result per
registered check, in order; a check that raises contributes an
ERROR-state result with its name and the exception message instead of
aborting the batch. -/
theorem inline_check_failures_isolated (checks : List InlineCheck) (context : CheckContext) :
    (execute_inline_checks checks context).length = checks.length ∧
    (∀ i : Nat, (execute_inline_checks checks context)[i]? =
      (checks[i]?).map fun check =>
        match check.execute context with
        | Except.ok result => result
        | Except.error e => mkCheckResult check.name CHECK_ERROR (some e)) ∧
    (∀ (i : Nat) (check : InlineCheck) (e : String), checks[i]? = some check →
      check.execute context = Except.error e →
      (execute_inline_checks checks context)[i]? =
        some (mkCheckResult check.name CHECK_ERROR (some e))) := by
  refine ⟨List.length_map _ _, ?_, ?_⟩
  · intro i
    exact List.getElem?_map ..
  · intro i check e hi he
    rw [execute_inline_checks, List.getElem?_map, hi]
    simp [he]

/-- Witness for C8: a raising check becomes an ERROR result in place. -/
theorem inline_check_failures_isolated_witness :
    (execute_inline_checks [⟨"CheckLicenses", fun _ => Except.error "boom"⟩]
      ⟨"org", "repo", "branch", "1.2.3.4", "sha"⟩)[0]? =
      some (mkCheckResult "CheckLicenses" CHECK_ERROR (some "boom")) :=
  (inline_check_failures_isolated [⟨"CheckLicenses", fun _ => Except.error "boom"⟩]
    ⟨"org", "repo", "branch", "1.2.3.4", "sha"⟩).2.2 0
    ⟨"CheckLicenses", fun _ => Except.error "boom"⟩ "boom" rfl rfl

/-! ## `releasability-status/src/main.py` -/

theorem filterMap_if_eq_map_filter (p : α → Bool) (f : α → β) (l : List α) :
    (l.filterMap fun a => if p a then some (f a) else none) = (l.filter p).map f := by
  induction l with
  | nil => rfl
  | cons a t ih =>
    by_cases h : p a
    · rw [List.filterMap_cons, List.filter_cons]
      simp [h, ih]
    · rw [List.filterMap_cons, List.filter_cons]
      simp [h, ih]

theorem lstrip_cons_mem (L : List Char) (x : Char) (xs : List Char)
    (h : L.contains x = true) : lstripChars L (x :: xs) = lstripChars L xs := by
  simp only [lstripChars, h, if_true]

theorem lstrip_cons_not (L : List Char) (x : Char) (xs : List Char)
    (h : L.contains x = false) : lstripChars L (x :: xs) = x :: xs := by
  simp only [lstripChars, h, Bool.false_eq_true, if_false]

/-- `find_failed_checks`; the input dict is its insertion-ordered
key/value list.  Note `key.lstrip('releasability')` strips a character
set, not a prefix. -/
def find_failed_checks (result : List (String × String)) : List String :=
  result.filterMap fun kv =>
    if (strChars "releasability").isPrefixOf (strChars kv.1) &&
        !(kv.2 == "PASSED" || kv.2 == "NOT_RELEVANT") then
      some (String.mk (lstripChars (strChars "releasability") (strChars kv.1)))
    else none

/-- C9 counterexample: on the key `releasabilityable` the returned name
is `""`, not the prefix-stripped `"able"` — Python's `lstrip` removes a
character set, and every letter of `able` is a letter of
`releasability`. -/
theorem find_failed_checks_charset_counterexample :
    find_failed_checks [("releasabilityable", "FAILED")] = [""] ∧ ("" : String) ≠ "able" := by
  constructor
  · decide
  · decide

/-- C9 amended: in input key order, one entry per key starting with
`releasability` whose value is neither PASSED nor NOT_RELEVANT, the
entry being the key with its longest leading run of characters drawn
from the letters of `releasability` removed (Python `lstrip` set
semantics); this equals prefix-stripping whenever the residue after the
prefix starts with a character outside that set — as every real check
name does — and the concrete scenario yields `["QA", "Jira"]`. -/
theorem find_failed_checks_lstrip_names :
    (∀ result : List (String × String),
      find_failed_checks result =
        (result.filter fun kv =>
          (strChars "releasability").isPrefixOf (strChars kv.1) &&
            !(kv.2 == "PASSED" || kv.2 == "NOT_RELEVANT")).map
          fun kv => String.mk (lstripChars (strChars "releasability") (strChars kv.1))) ∧
    (∀ t : List Char,
      ((t.head?).all fun c => !((strChars "releasability").contains c)) = true →
      lstripChars (strChars "releasability") (strChars "releasability" ++ t) = t) ∧
    find_failed_checks [("releasabilityQA", "ERROR"), ("releasabilityJira", "FAILED"),
      ("releasabilityGitHub", "NOT_RELEVANT"), ("status", "1")] = ["QA", "Jira"] := by
  refine ⟨?_, ?_, by decide⟩
  · intro result
    rw [find_failed_checks]
    exact filterMap_if_eq_map_filter _ _ result
  · intro t ht
    rw [show strChars "releasability" ++ t =
      'r' :: 'e' :: 'l' :: 'e' :: 'a' :: 's' :: 'a' :: 'b' :: 'i' :: 'l' :: 'i' :: 't' ::
        'y' :: t from rfl]
    rw [lstrip_cons_mem _ _ _ (by decide), lstrip_cons_mem _ _ _ (by decide),
      lstrip_cons_mem _ _ _ (by decide), lstrip_cons_mem _ _ _ (by decide),
      lstrip_cons_mem _ _ _ (by decide), lstrip_cons_mem _ _ _ (by decide),
      lstrip_cons_mem _ _ _ (by decide), lstrip_cons_mem _ _ _ (by decide),
      lstrip_cons_mem _ _ _ (by decide), lstrip_cons_mem _ _ _ (by decide),
      lstrip_cons_mem _ _ _ (by decide), lstrip_cons_mem _ _ _ (by decide),
      lstrip_cons_mem _ _ _ (by decide)]
    cases t with
    | nil => rfl
    | cons c rest =>
      have hc : (strChars "releasability").contains c = false := by
        simpa using ht
      exact lstrip_cons_not _ _ _ hc

/-- Witness for the C9 amendment: on a real check-name residue the
character-set strip coincides with prefix-stripping. -/
theorem find_failed_checks_lstrip_names_witness :
    lstripChars (strChars "releasability") (strChars "releasability" ++ strChars "QA") =
      strChars "QA" :=
  find_failed_checks_lstrip_names.2.1 (strChars "QA") (by decide)

/-! ## `utils/sca_exceptions.py` — name normalization

`LicenseFileDetector.normalize_for_comparison`: maven-coordinate
normalization (`:` to `.`), then `lower()` and `strip()`.  `lower` is
`Char.toLower` (basic-latin, like Python on the ASCII names in play) and
`strip` drops the four ASCII whitespace characters at both ends.  The
artifact-id branch of the source returns `normalized` in both arms.
-/

theorem char_toNat_ofNat (n : Nat) (h : n < 55296) : (Char.ofNat n).toNat = n := by
  unfold Char.ofNat
  rw [dif_pos (Or.inl h)]
  rfl

theorem char_toLower_toNat (c : Char) :
    (Char.toLower c).toNat =
      if c.toNat ≥ 65 ∧ c.toNat ≤ 90 then c.toNat + 32 else c.toNat := by
  simp only [Char.toLower]
  by_cases h : c.toNat ≥ 65 ∧ c.toNat ≤ 90
  · rw [if_pos h, if_pos h, char_toNat_ofNat _ (by omega)]
  · rw [if_neg h, if_neg h]

theorem char_eq_of_toNat_eq {c d : Char} (h : c.toNat = d.toNat) : c = d := by
  apply Char.eq_of_val_eq
  have hv : c.val.toBitVec.toNat = d.val.toBitVec.toNat := h
  have : c.val.toBitVec = d.val.toBitVec := by
    apply BitVec.eq_of_toNat_eq hv
  cases cv : c.val with
  | mk bv =>
    cases dv : d.val with
    | mk bw =>
      rw [cv, dv] at this
      simp only at this
      rw [this]

theorem toLower_toLower (c : Char) : Char.toLower (Char.toLower c) = Char.toLower c := by
  apply char_eq_of_toNat_eq
  rw [char_toLower_toNat, char_toLower_toNat]
  split_ifs <;> omega

theorem toLower_ne_colon {c : Char} (h : c ≠ ':') : Char.toLower c ≠ ':' := by
  intro hc
  have hn : (Char.toLower c).toNat = 58 := by rw [hc]; rfl
  rw [char_toLower_toNat] at hn
  by_cases hb : c.toNat ≥ 65 ∧ c.toNat ≤ 90
  · rw [if_pos hb] at hn; omega
  · rw [if_neg hb] at hn
    exact h (char_eq_of_toNat_eq (hn.trans (show (58 : Nat) = (':' : Char).toNat from rfl)))

theorem dropWhile_of_head_false (p : Char → Bool) (l : List Char)
    (h : ∀ c, l.head? = some c → p c = false) : l.dropWhile p = l := by
  cases l with
  | nil => rfl
  | cons a t =>
    have ha : p a = false := h a rfl
    rw [List.dropWhile_cons, if_neg (by simp [ha])]

theorem dropWhile_dropWhile (p : Char → Bool) (l : List Char) :
    (l.dropWhile p).dropWhile p = l.dropWhile p :=
  dropWhile_of_head_false p _ (dropWhile_head_false p l)

theorem mem_dropWhile (p : Char → Bool) (l : List Char) (x : Char)
    (h : x ∈ l.dropWhile p) : x ∈ l := by
  induction l with
  | nil => simp at h
  | cons a t ih =>
    rw [List.dropWhile_cons] at h
    by_cases hp : p a = true
    · rw [if_pos (by simp [hp])] at h
      exact List.mem_cons_of_mem a (ih h)
    · rw [if_neg (by simpa using hp)] at h
      exact h

theorem mem_pyStrip (l : List Char) (x : Char) (h : x ∈ pyStrip l) : x ∈ l := by
  unfold pyStrip at h
  rw [List.mem_reverse] at h
  have h2 := mem_dropWhile _ _ _ h
  rw [List.mem_reverse] at h2
  exact mem_dropWhile _ _ _ h2

theorem pyStrip_idem (l : List Char) : pyStrip (pyStrip l) = pyStrip l := by
  unfold pyStrip
  have hu_eq : l.dropWhile Char.isWhitespace =
      ((l.dropWhile Char.isWhitespace).reverse.dropWhile Char.isWhitespace).reverse ++
        ((l.dropWhile Char.isWhitespace).reverse.takeWhile Char.isWhitespace).reverse := by
    conv_lhs => rw [← List.reverse_reverse (l.dropWhile Char.isWhitespace),
      ← List.takeWhile_append_dropWhile
        (p := Char.isWhitespace) (l := (l.dropWhile Char.isWhitespace).reverse)]
    rw [List.reverse_append]
  have h1 : ((l.dropWhile Char.isWhitespace).reverse.dropWhile
      Char.isWhitespace).reverse.dropWhile Char.isWhitespace =
      ((l.dropWhile Char.isWhitespace).reverse.dropWhile Char.isWhitespace).reverse := by
    apply dropWhile_of_head_false
    intro c hc
    cases hrev : ((l.dropWhile Char.isWhitespace).reverse.dropWhile
        Char.isWhitespace).reverse with
    | nil => rw [hrev] at hc; cases hc
    | cons z zs =>
      rw [hrev] at hc
      simp only [List.head?_cons, Option.some.injEq] at hc
      subst hc
      apply dropWhile_head_false Char.isWhitespace l
      rw [hu_eq, hrev]
      rfl
  rw [h1, List.reverse_reverse, dropWhile_dropWhile]

/-- `LicenseFileDetector.normalize_maven_coordinate`: replace `:` by `.`
when a colon occurs (single-character `str.replace`). -/
def normalize_maven_coordinate (cs : List Char) : List Char :=
  if cs.contains ':' then cs.map fun c => if c = ':' then '.' else c else cs

/-- Python `str.lower()`. -/
def pyLower (cs : List Char) : List Char := cs.map Char.toLower

/-- `LicenseFileDetector.normalize_for_comparison`. -/
def normalize_for_comparison (s : String) : String :=
  String.mk (pyStrip (pyLower (normalize_maven_coordinate (strChars s))))

theorem map_self_of_fixed {f : Char → Char} {l : List Char}
    (h : ∀ x ∈ l, f x = x) : l.map f = l := by
  induction l with
  | nil => rfl
  | cons a t ih =>
    rw [List.map_cons, h a (by simp), ih fun x hx => h x (by simp [hx])]

theorem normalize_maven_coordinate_no_colon (cs : List Char) :
    ∀ x ∈ normalize_maven_coordinate cs, x ≠ ':' := by
  intro x hx
  unfold normalize_maven_coordinate at hx
  by_cases hc : cs.contains ':' = true
  · rw [if_pos hc] at hx
    obtain ⟨y, _, hy⟩ := List.mem_map.mp hx
    intro hcol
    subst hcol
    by_cases hy2 : y = ':'
    · rw [if_pos hy2] at hy; cases hy
    · rw [if_neg hy2] at hy; exact hy2 hy
  · rw [if_neg hc] at hx
    intro hcol
    subst hcol
    exact hc (List.elem_iff.mpr hx)

theorem normalize_maven_coordinate_of_no_colon (cs : List Char)
    (h : cs.contains ':' = false) : normalize_maven_coordinate cs = cs := by
  unfold normalize_maven_coordinate
  rw [h]
  rfl

theorem normalize_for_comparison_idem (s : String) :
    normalize_for_comparison (normalize_for_comparison s) = normalize_for_comparison s := by
  unfold normalize_for_comparison
  have hchars : strChars (String.mk (pyStrip (pyLower
      (normalize_maven_coordinate (strChars s))))) =
      pyStrip (pyLower (normalize_maven_coordinate (strChars s))) := rfl
  rw [hchars]
  have hmemw : ∀ x ∈ pyStrip (pyLower (normalize_maven_coordinate (strChars s))),
      x ∈ pyLower (normalize_maven_coordinate (strChars s)) :=
    fun x hx => mem_pyStrip _ x hx
  have hnoColon : (pyStrip (pyLower (normalize_maven_coordinate
      (strChars s)))).contains ':' = false := by
    rw [← Bool.not_eq_true]
    intro hc
    have hmem := List.elem_iff.mp hc
    obtain ⟨y, hy, hly⟩ := List.mem_map.mp (hmemw _ hmem)
    exact toLower_ne_colon (normalize_maven_coordinate_no_colon (strChars s) y hy) hly
  rw [normalize_maven_coordinate_of_no_colon _ hnoColon]
  have hlower : pyLower (pyStrip (pyLower (normalize_maven_coordinate (strChars s)))) =
      pyStrip (pyLower (normalize_maven_coordinate (strChars s))) := by
    apply map_self_of_fixed
    intro x hx
    obtain ⟨y, _, hly⟩ := List.mem_map.mp (hmemw x hx)
    rw [← hly]
    exact toLower_toLower y
  rw [hlower, pyStrip_idem]

/-! ## `utils/sca_exceptions.py` — fuzzy matching and comparison

CPython's set iteration order is unspecified, so
`_find_fuzzy_matches`'s greedy first-match result depends on it; the
embedding takes the two iteration orders as explicit list parameters
(each a duplicate-free enumeration of the corresponding normalized
set), and the theorems quantify over them.
-/

/-- The candidate test of the inner loop of `_find_fuzzy_matches`. -/
def fuzzy_match_candidate (artifact_id license_dep : List Char) : Bool :=
  license_dep == artifact_id ||
  ('.' :: artifact_id).isSuffixOf license_dep ||
  (artifact_id ++ ['.']).isPrefixOf license_dep ||
  containsSub ('.' :: artifact_id ++ ['.']) license_dep ||
  (license_dep.contains '-' &&
    (splitOnChar '-' license_dep).any fun part => part == artifact_id)

/-- Python `sca_dep.split('.')[-1]`. -/
def artifact_id_of (sca_dep : String) : List Char :=
  (splitOnChar '.' (strChars sca_dep)).getLastD []

/-- The inner `for license_dep in license_deps` loop with its `break`:
first unused candidate in iteration order, if any. -/
def find_first_fuzzy (artifact_id : List Char) (used : List String) :
    List String → Option String
  | [] => none
  | l :: rest =>
    if !used.contains l && fuzzy_match_candidate artifact_id (strChars l) then some l
    else find_first_fuzzy artifact_id used rest

/-- The outer loop of `_find_fuzzy_matches`, carrying
`used_license_deps`. -/
def find_fuzzy_aux (license_list : List String) :
    List String → List String → List (String × String)
  | [], _ => []
  | sca :: rest, used =>
    if license_list.contains sca && !used.contains sca then
      (sca, sca) :: find_fuzzy_aux license_list rest (sca :: used)
    else if (strChars sca).contains '.' then
      match find_first_fuzzy (artifact_id_of sca) used license_list with
      | some l => (sca, l) :: find_fuzzy_aux license_list rest (l :: used)
      | none => find_fuzzy_aux license_list rest used
    else find_fuzzy_aux license_list rest used

/-- `SCAComparisonEngine._find_fuzzy_matches` over the given iteration
orders. -/
def find_fuzzy_matches (sca_list license_list : List String) : List (String × String) :=
  find_fuzzy_aux license_list sca_list []

/-- `{normalize_for_comparison(name) for name in s}`. -/
def normalizedSet (s : Finset String) : Finset String :=
  s.image normalize_for_comparison

/-- `expected_dependencies = (normalized_sca_deps | normalized_fns) -
normalized_fps`. -/
def expected_dependencies_set (sca_dependencies fps fns : Finset String) : Finset String :=
  (normalizedSet sca_dependencies ∪ normalizedSet fns) \ normalizedSet fps

/-- `found_dependencies = matched_license_deps | (normalized_fns &
actual_dependencies)`, for the given iteration orders. -/
def found_dependencies (license_dependencies fns : Finset String)
    (sca_order license_order : List String) : Finset String :=
  ((find_fuzzy_matches sca_order license_order).map Prod.snd).toFinset ∪
    (normalizedSet fns ∩ normalizedSet license_dependencies)

/-- The fields of the dictionary `compare_with_exceptions` returns
(`fuzzy_matches` is the pair list itself). -/
structure ComparisonResult where
  expected_dependencies : Finset String
  actual_dependencies : Finset String
  missing_dependencies : Finset String
  extra_dependencies : Finset String
  coverage_percentage : ℚ
  false_positives_used : Finset String
  false_negatives_used : Finset String
  total_expected : Nat
  total_actual : Nat
  matched_count : Nat
  fuzzy_matches : List (String × String)

/-- `SCAComparisonEngine.compare_with_exceptions`, with the two set
iteration orders explicit.  `coverage_percentage` is exact rational
arithmetic for the float `(matched / total_expected) * 100`. -/
def compare_with_exceptions (license_dependencies sca_dependencies fps fns : Finset String)
    (sca_order license_order : List String) : ComparisonResult :=
  let expected := expected_dependencies_set sca_dependencies fps fns
  let actual := normalizedSet license_dependencies
  let found := found_dependencies license_dependencies fns sca_order license_order
  let matched_pairs := find_fuzzy_matches sca_order license_order
  { expected_dependencies := expected
    actual_dependencies := actual
    missing_dependencies := expected \ found
    extra_dependencies := actual \ found
    coverage_percentage :=
      if 0 < expected.card then
        (((found ∩ expected).card : ℚ) / (expected.card : ℚ)) * 100
      else 0
    false_positives_used := normalizedSet fps
    false_negatives_used := normalizedSet fns
    total_expected := expected.card
    total_actual := actual.card
    matched_count := ((matched_pairs.map Prod.fst).toFinset ∩ expected).card
    fuzzy_matches := matched_pairs }

/-- C2 counterexample: a name occurring in both exception lists is
removed from the expected set — membership in false-negatives alone does
not put it into `expected_dependencies`. -/
theorem exception_overlap_counterexample :
    ("a" : String) ∈ ({"a"} : Finset String) ∧
    ("a" : String) ∉
      (compare_with_exceptions ∅ ∅ {"a"} {"a"} [] []).expected_dependencies := by
  constructor
  · decide
  · decide

/-- C2 amended: a dependency of the false-positives set never appears in
`missing_dependencies`; a dependency of the false-negatives set has its
normalized form in `expected_dependencies` unless that normalized form
is also a normalized false positive — for every input and iteration
order. -/
theorem exception_application_law
    (license_dependencies sca_dependencies fps fns : Finset String)
    (sca_order license_order : List String) (d : String) :
    (d ∈ fps →
      d ∉ (compare_with_exceptions license_dependencies sca_dependencies fps fns
        sca_order license_order).missing_dependencies) ∧
    (d ∈ fns → normalize_for_comparison d ∉ normalizedSet fps →
      normalize_for_comparison d ∈
        (compare_with_exceptions license_dependencies sca_dependencies fps fns
          sca_order license_order).expected_dependencies) := by
  constructor
  · intro hd hmiss
    simp only [compare_with_exceptions] at hmiss
    rw [Finset.mem_sdiff] at hmiss
    have hexp := hmiss.1
    unfold expected_dependencies_set at hexp
    rw [Finset.mem_sdiff] at hexp
    obtain ⟨hun, hnfps⟩ := hexp
    have hdfix : normalize_for_comparison d = d := by
      rw [Finset.mem_union] at hun
      rcases hun with hx | hx <;>
      · obtain ⟨y, _, hy⟩ := Finset.mem_image.mp hx
        rw [← hy, normalize_for_comparison_idem]
    refine hnfps ?_
    rw [← hdfix]
    exact Finset.mem_image_of_mem _ hd
  · intro hd hnot
    simp only [compare_with_exceptions]
    unfold expected_dependencies_set
    rw [Finset.mem_sdiff, Finset.mem_union]
    exact ⟨Or.inr (Finset.mem_image_of_mem _ hd), hnot⟩

/-- Witness for the C2 amendment. -/
theorem exception_application_law_witness :
    ("b" : String) ∉
      (compare_with_exceptions ∅ {"b"} {"b"} ∅ ["b"] []).missing_dependencies ∧
    normalize_for_comparison "c" ∈
      (compare_with_exceptions ∅ ∅ ∅ {"c"} [] []).expected_dependencies :=
  ⟨(exception_application_law ∅ {"b"} {"b"} ∅ ["b"] [] "b").1 (by decide),
   (exception_application_law ∅ ∅ ∅ {"c"} [] [] "c").2 (by decide) (by decide)⟩

theorem list_eq_pair_of_nodup (l : List String) (a b : String) (hab : a ≠ b)
    (hd : l.Nodup) (hm : ∀ x, x ∈ l ↔ (x = a ∨ x = b)) : l = [a, b] ∨ l = [b, a] := by
  cases l with
  | nil => exact absurd ((hm a).mpr (Or.inl rfl)) (List.not_mem_nil a)
  | cons x t =>
    cases t with
    | nil =>
      have ha := (hm a).mpr (Or.inl rfl)
      have hb := (hm b).mpr (Or.inr rfl)
      simp only [List.mem_singleton] at ha hb
      exact absurd (ha.trans hb.symm) hab
    | cons y t2 =>
      simp only [List.nodup_cons, List.mem_cons] at hd
      have hxy : x ≠ y := fun h => hd.1 (Or.inl h)
      have hx : x = a ∨ x = b := (hm x).mp (by simp)
      have hy : y = a ∨ y = b := (hm y).mp (by simp)
      have ht2 : t2 = [] := by
        cases t2 with
        | nil => rfl
        | cons z t3 =>
          have hz : z = a ∨ z = b := (hm z).mp (by simp)
          have hzx : z ≠ x := fun h => hd.1 (Or.inr (by simp [h.symm]))
          have hzy : z ≠ y := fun h => hd.2.1 (by simp [h.symm])
          rcases hx with rfl | rfl <;> rcases hy with rfl | rfl <;>
            rcases hz with rfl | rfl <;> first
            | exact absurd rfl hxy
            | exact absurd rfl hzx
            | exact absurd rfl hzy
      subst ht2
      rcases hx with rfl | rfl
      · rcases hy with rfl | rfl
        · exact absurd rfl hxy
        · left; rfl
      · rcases hy with rfl | rfl
        · right; rfl
        · exact absurd rfl hxy

theorem coverage_eval_fifty (lic sca fps fns : Finset String) (so lo : List String)
    (h1 : (found_dependencies lic fns so lo ∩ expected_dependencies_set sca fps fns).card = 1)
    (h2 : (expected_dependencies_set sca fps fns).card = 2) :
    (compare_with_exceptions lic sca fps fns so lo).coverage_percentage = 50 := by
  simp only [compare_with_exceptions]
  rw [h1, h2]
  norm_num

/-- C5: coverage is the guarded ratio — zero when the expected set is
empty, else `100 × |found ∩ expected| / |expected|` — and on expected
`{dep1,dep3}` versus actual `{dep1,dep2}` with no exceptions the result
has missing `{dep3}`, extra `{dep2}` and coverage `50`, whatever
iteration order the two sets are traversed in. -/
theorem coverage_guarded_ratio :
    (∀ (license_dependencies sca_dependencies fps fns : Finset String)
        (sca_order license_order : List String),
      ((expected_dependencies_set sca_dependencies fps fns).card = 0 →
        (compare_with_exceptions license_dependencies sca_dependencies fps fns
          sca_order license_order).coverage_percentage = 0) ∧
      ((expected_dependencies_set sca_dependencies fps fns).card ≠ 0 →
        (compare_with_exceptions license_dependencies sca_dependencies fps fns
          sca_order license_order).coverage_percentage =
          100 * ((found_dependencies license_dependencies fns sca_order license_order ∩
            expected_dependencies_set sca_dependencies fps fns).card : ℚ) /
              ((expected_dependencies_set sca_dependencies fps fns).card : ℚ))) ∧
    (∀ sca_order license_order : List String,
      sca_order.Nodup →
      sca_order.toFinset = normalizedSet {"dep1", "dep3"} →
      license_order.Nodup →
      license_order.toFinset = normalizedSet {"dep1", "dep2"} →
      (compare_with_exceptions {"dep1", "dep2"} {"dep1", "dep3"} ∅ ∅
        sca_order license_order).missing_dependencies = {"dep3"} ∧
      (compare_with_exceptions {"dep1", "dep2"} {"dep1", "dep3"} ∅ ∅
        sca_order license_order).extra_dependencies = {"dep2"} ∧
      (compare_with_exceptions {"dep1", "dep2"} {"dep1", "dep3"} ∅ ∅
        sca_order license_order).coverage_percentage = 50) := by
  constructor
  · intro license_dependencies sca_dependencies fps fns sca_order license_order
    constructor
    · intro h0
      simp only [compare_with_exceptions]
      rw [if_neg (by omega)]
    · intro hne
      simp only [compare_with_exceptions]
      rw [if_pos (Nat.pos_of_ne_zero hne)]
      ring
  · intro sca_order license_order hnd1 hto1 hnd2 hto2
    have hmem1 : ∀ x, x ∈ sca_order ↔ (x = "dep1" ∨ x = "dep3") := by
      intro x
      rw [← List.mem_toFinset, hto1,
        show normalizedSet {"dep1", "dep3"} = {"dep1", "dep3"} from by decide]
      simp [Finset.mem_insert]
    have hmem2 : ∀ x, x ∈ license_order ↔ (x = "dep1" ∨ x = "dep2") := by
      intro x
      rw [← List.mem_toFinset, hto2,
        show normalizedSet {"dep1", "dep2"} = {"dep1", "dep2"} from by decide]
      simp [Finset.mem_insert]
    rcases list_eq_pair_of_nodup sca_order "dep1" "dep3" (by decide) hnd1 hmem1 with
      rfl | rfl <;>
    rcases list_eq_pair_of_nodup license_order "dep1" "dep2" (by decide) hnd2 hmem2 with
      rfl | rfl <;>
    exact ⟨by decide, by decide,
      coverage_eval_fifty _ _ _ _ _ _ (by decide) (by decide)⟩

/-- Witness for C5: the empty-expected guard and the concrete scenario
at explicit iteration orders. -/
theorem coverage_guarded_ratio_witness :
    (compare_with_exceptions ∅ ∅ ∅ ∅ [] []).coverage_percentage = 0 ∧
    (compare_with_exceptions {"dep1", "dep2"} {"dep1", "dep3"} ∅ ∅
      ["dep1", "dep3"] ["dep1", "dep2"]).missing_dependencies = {"dep3"} :=
  ⟨(coverage_guarded_ratio.1 ∅ ∅ ∅ ∅ [] []).1 (by decide),
   (coverage_guarded_ratio.2 ["dep1", "dep3"] ["dep1", "dep2"] (by decide) (by decide)
     (by decide) (by decide)).1⟩
